import Mathlib

set_option linter.unusedSectionVars false

/-!
# Verification of `orderedmap` (Go package `abusizhishen/orderedmap`)

Shallow embedding of `src/orderedmap.go`: a concurrency-safe insertion-ordered
map built from a hash index (`kv map[interface{}]*list.Element`) and a doubly
linked list (`ll *list.List`) of `orderedMapElement{key, value}` nodes.

Modelling decisions:
* Go's dynamic `interface{}` is one type `α` (used for both keys and values,
  exactly as the source does); Go's `nil` is `default : α` via `Inhabited α`.
* A `*list.Element` pointer is modelled as a numeric handle (`Nat` id).  The
  container carries the list of nodes `(id, key, value)` in sequence order and
  the index as an association list `(key, id)`; `nextId` supplies fresh ids.
  Dereferencing a pointer stored in the index is modelled as looking the id up
  in the node list (under the container invariant the handle always resolves
  to exactly one live node, as a live `*list.Element` does in Go).
* The Go `map` is modelled as an association list looked up by first match;
  the invariant that a Go map has no duplicate keys is part of `Invariant`.
* Locks are dropped: every public method is one critical section, so the
  sequential semantics of each method body is its observable behaviour.
* The gob/JSON byte envelope of `MarshalJSON`/`UnmarshalJSON` is external
  library code; it is modelled at the boundary by `DecodeInput`, which is
  either a failure of the outer `json.Unmarshal`, a failure of the inner
  `gob.Decode`, or the successfully decoded flattened `[]interface{}`
  collection.  The repository's own logic (flattening keys with `Get` data,
  the odd-length check, the `Set` loop) is embedded faithfully.
-/

/-- One linked-list node: handle id, key, value
(Go `orderedMapElement` together with its `*list.Element`). -/
structure OrderedMap (α : Type) where
  nextId : Nat
  nodes : List (Nat × α × α)
  kv : List (α × Nat)
  deriving Repr, DecidableEq

namespace OrderedMap

variable {α : Type} [DecidableEq α]

/-- Go `NewOrderedMap()`: empty index, empty list. -/
def NewOrderedMap : OrderedMap α := ⟨0, [], []⟩

/-- Go map lookup `m.kv[key]`: the handle stored for `key`, if any. -/
def kvFind (m : OrderedMap α) (k : α) : Option Nat :=
  (m.kv.find? (fun p => p.1 == k)).map (·.2)

/-- Dereference a handle: the node of `m.ll` the `*list.Element` points to. -/
def nodeFind (m : OrderedMap α) (h : Nat) : Option (Nat × α × α) :=
  m.nodes.find? (fun n => n.1 == h)

/-- Go `Get`: look the key up in the index; on a hit dereference the element
pointer and return its value with `true`, else `(nil, false)`.
`none` plays Go's `(nil, false)`. -/
def Get (m : OrderedMap α) (k : α) : Option α :=
  match kvFind m k with
  | some h => (nodeFind m h).map (fun n => n.2.2)
  | none => none

/-- Go `Set`: if the key is absent, `PushBack` a fresh node and store its
handle in the index, returning `true`; otherwise overwrite the value inside
the existing node in place, returning `false`. -/
def Set (m : OrderedMap α) (k v : α) : Bool × OrderedMap α :=
  match kvFind m k with
  | none =>
      (true, { nextId := m.nextId + 1,
               nodes := m.nodes ++ [(m.nextId, k, v)],
               kv := m.kv ++ [(k, m.nextId)] })
  | some h =>
      (false, { m with
                nodes := m.nodes.map (fun n => if n.1 == h then (n.1, n.2.1, v) else n) })

/-- Go `GetOrDefault`: stored value on a hit, else the supplied default. -/
def GetOrDefault (m : OrderedMap α) (k d : α) : α :=
  match kvFind m k with
  | some h => ((nodeFind m h).map (fun n => n.2.2)).getD d
  | none => d

/-- Go `Len`: `len(m.kv)`. -/
def Len (m : OrderedMap α) : Nat := m.kv.length

/-- Go `Keys`: walk the list front to back collecting keys. -/
def Keys (m : OrderedMap α) : List α :=
  m.nodes.map (fun n => n.2.1)

/-- Go `Delete`: on a hit remove the node from the list (`ll.Remove`) and the
entry from the index (`delete(m.kv, key)`), returning whether the key existed. -/
def Delete (m : OrderedMap α) (k : α) : Bool × OrderedMap α :=
  match kvFind m k with
  | some h =>
      (true, { m with
               nodes := m.nodes.eraseP (fun n => n.1 == h),
               kv := m.kv.eraseP (fun p => p.1 == k) })
  | none => (false, m)

/-- Go `Front`: key and value of `ll.Front()`, `nil` (here `none`) if empty. -/
def Front (m : OrderedMap α) : Option (α × α) :=
  m.nodes.head?.map (fun n => (n.2.1, n.2.2))

/-- Go `Back`: key and value of `ll.Back()`, `nil` (here `none`) if empty. -/
def Back (m : OrderedMap α) : Option (α × α) :=
  m.nodes.getLast?.map (fun n => (n.2.1, n.2.2))

/-- The collection-building loop of Go `MarshalJSON`: for each key of the
snapshot, `data, _ = m.Get(key)` and append `key` then `data` — the found
flag is discarded, so a missing key contributes Go `nil`
(modelled by `default`). -/
def marshalCollect [Inhabited α] (m : OrderedMap α) : List α → List α
  | [] => []
  | k :: rest => k :: (Get m k).getD default :: marshalCollect m rest

/-- Go `MarshalJSON` up to the gob/JSON envelope: the flattened
`[]interface{}` collection built from `Keys()` and per-key `Get`. -/
def MarshalJSON [Inhabited α] (m : OrderedMap α) : List α :=
  marshalCollect m (Keys m)

/-- Outcome of the two external decoding layers inside Go `UnmarshalJSON`:
the outer `json.Unmarshal` into `[]byte` may fail, the inner `gob.Decode`
into `[]interface{}` may fail, or decoding succeeds with a flattened
collection. -/
inductive DecodeInput (α : Type) where
  | badOuter
  | badGob
  | ok (collection : List α)
  deriving Repr, DecidableEq

/-- The pairing of the decoded flattened collection used by the `Set` loop of
Go `UnmarshalJSON`: `collection[2i]` is a key, `collection[2i+1]` its value. -/
def toPairs : List α → List (α × α)
  | k :: v :: rest => (k, v) :: toPairs rest
  | _ => []

/-- The `Set` loop of Go `UnmarshalJSON`: apply `Set` to each decoded pair in
order, starting from the receiver. -/
def setPairs (m : OrderedMap α) : List (α × α) → OrderedMap α
  | [] => m
  | (k, v) :: ps => setPairs (Set m k v).2 ps

/-- Go `UnmarshalJSON`: propagate either decode error, reject an odd-length
collection (`count<<1 != length`), else `Set` every pair in order.  The first
component is the returned `error` (`none` = success); the second is the
resulting container state. -/
def UnmarshalJSON (m : OrderedMap α) (input : DecodeInput α) :
    Option String × OrderedMap α :=
  match input with
  | .badOuter => (some "json unmarshal error", m)
  | .badGob => (some "gob decode error", m)
  | .ok c =>
      let length := c.length
      let count := length >>> 1
      if count <<< 1 ≠ length then
        (some "invalid data, key-value doesn't match", m)
      else
        (none, setPairs m (toPairs c))

/-- The (key, value) entries of the sequence, front to back. -/
def entries (m : OrderedMap α) : List (α × α) :=
  m.nodes.map (fun n => (n.2.1, n.2.2))

/-- Characterization device for the `Set` loop: the keys of a pair list that
are new relative to an initial key snapshot, in first-occurrence order. -/
def freshKeys (ks : List α) : List (α × α) → List α
  | [] => []
  | (k, _) :: ps =>
      if k ∈ ks then freshKeys ks ps else k :: freshKeys (ks ++ [k]) ps

/-- Characterization device for the `Set` loop: the value attached to the last
pair carrying the given key, if any. -/
def lookupLast (ps : List (α × α)) (k : α) : Option α :=
  match ps with
  | [] => none
  | (k₀, v) :: rest =>
      match lookupLast rest k with
      | some r => some r
      | none => if k₀ == k then some v else none

/-- Containers built from the empty container by a finite sequence of `Set`
and `Delete` calls. -/
inductive Reachable : OrderedMap α → Prop where
  | empty : Reachable NewOrderedMap
  | set {m : OrderedMap α} (k v : α) : Reachable m → Reachable (Set m k v).2
  | del {m : OrderedMap α} (k : α) : Reachable m → Reachable (Delete m k).2

/-- The container invariant: index keys and node ids are duplicate-free, every
index entry's handle resolves to a node carrying that key, every node is
registered in the index under its key and id, both structures have the same
size, and every live id is below `nextId`. -/
def Invariant (m : OrderedMap α) : Prop :=
  (m.kv.map Prod.fst).Nodup ∧
  (m.nodes.map Prod.fst).Nodup ∧
  (∀ p ∈ m.kv, ∃ n ∈ m.nodes, n.1 = p.2 ∧ n.2.1 = p.1) ∧
  (∀ n ∈ m.nodes, (n.2.1, n.1) ∈ m.kv) ∧
  m.kv.length = m.nodes.length ∧
  (∀ n ∈ m.nodes, n.1 < m.nextId)

instance (m : OrderedMap α) : Decidable (Invariant m) := by
  unfold Invariant; infer_instance

/-! ## Generic facts about association lists with duplicate-free keys -/

/-- In a list of pairs whose first components are duplicate-free, two members
with the same first component are the same pair. -/
theorem key_unique {β γ : Type} {l : List (β × γ)}
    (hnd : (l.map Prod.fst).Nodup) {x y : β × γ}
    (hx : x ∈ l) (hy : y ∈ l) (hxy : x.1 = y.1) : x = y := by
  induction l with
  | nil => cases hx
  | cons a l ih =>
    simp only [List.map_cons, List.nodup_cons] at hnd
    rcases List.mem_cons.1 hx with rfl | hx₀
    · rcases List.mem_cons.1 hy with rfl | hy₀
      · rfl
      · exact absurd (hxy ▸ List.mem_map_of_mem Prod.fst hy₀) hnd.1
    · rcases List.mem_cons.1 hy with rfl | hy₀
      · exact absurd (hxy ▸ List.mem_map_of_mem Prod.fst hx₀) hnd.1
      · exact ih hnd.2 hx₀ hy₀

/-- Searching a duplicate-free-keyed pair list for the key of a member finds
exactly that member. -/
theorem find?_key_self {β γ : Type} [DecidableEq β] {l : List (β × γ)}
    (hnd : (l.map Prod.fst).Nodup) {x : β × γ} (hx : x ∈ l) :
    l.find? (fun y => y.1 == x.1) = some x := by
  have hs : (l.find? (fun y => y.1 == x.1)).isSome :=
    List.find?_isSome.2 ⟨x, hx, by simp⟩
  match hfind : l.find? (fun y => y.1 == x.1) with
  | none => rw [hfind] at hs; simp at hs
  | some y =>
    have hy := List.mem_of_find?_eq_some hfind
    have hp := List.find?_some hfind
    simp only [beq_iff_eq] at hp
    exact hfind.trans (congrArg some (key_unique hnd hy hx hp))

/-- Erasing by the key of a member of a duplicate-free-keyed pair list splits
the list around that member. -/
theorem eraseP_key_decomp {β γ : Type} [DecidableEq β] {l : List (β × γ)}
    (hnd : (l.map Prod.fst).Nodup) {e : β × γ} (he : e ∈ l) :
    ∃ l₁ l₂, l = l₁ ++ e :: l₂ ∧
      l.eraseP (fun y => y.1 == e.1) = l₁ ++ l₂ ∧
      e.1 ∉ l₁.map Prod.fst ∧ e.1 ∉ l₂.map Prod.fst := by
  obtain ⟨a, l₁, l₂, hl₁, hpa, hdec, herase⟩ :=
    List.exists_of_eraseP he (p := fun y => y.1 == e.1) (by simp)
  simp only [beq_iff_eq] at hpa
  have ha : a ∈ l := hdec ▸ List.mem_append_right l₁ (List.mem_cons_self a l₂)
  have hae : a = e := key_unique hnd ha he hpa
  subst hae
  refine ⟨l₁, l₂, hdec, herase, ?_, ?_⟩
  · intro hmem
    obtain ⟨b, hb, hb1⟩ := List.mem_map.1 hmem
    exact absurd (beq_iff_eq.2 hb1) (by simpa using hl₁ b hb)
  · have := hdec ▸ hnd
    simp only [List.map_append, List.map_cons, List.nodup_append,
      List.nodup_cons] at this
    exact this.2.1.1

/-- Membership in a duplicate-free-keyed pair list after erasing a member's
key: exactly the pairs of the original list with a different key. -/
theorem mem_eraseP_key {β γ : Type} [DecidableEq β] {l : List (β × γ)}
    (hnd : (l.map Prod.fst).Nodup) {e : β × γ} (he : e ∈ l) {x : β × γ} :
    x ∈ l.eraseP (fun y => y.1 == e.1) ↔ x ∈ l ∧ x.1 ≠ e.1 := by
  obtain ⟨l₁, l₂, hdec, herase, hk₁, hk₂⟩ := eraseP_key_decomp hnd he
  rw [herase, hdec]
  constructor
  · intro hx
    rcases List.mem_append.1 hx with hx₁ | hx₂
    · refine ⟨List.mem_append_left _ hx₁, fun hcon => ?_⟩
      exact hk₁ (hcon ▸ List.mem_map_of_mem Prod.fst hx₁)
    · refine ⟨List.mem_append_right _ (List.mem_cons_of_mem e hx₂), fun hcon => ?_⟩
      exact hk₂ (hcon ▸ List.mem_map_of_mem Prod.fst hx₂)
  · rintro ⟨hx, hne⟩
    rcases List.mem_append.1 hx with hx₁ | hx₂
    · exact List.mem_append_left _ hx₁
    · rcases List.mem_cons.1 hx₂ with rfl | hx₃
      · exact absurd rfl hne
      · exact List.mem_append_right _ hx₃

/-! ## Consequences of the invariant -/

theorem kvFind_mem {m : OrderedMap α} {k : α} {h : Nat}
    (hf : kvFind m k = some h) : (k, h) ∈ m.kv := by
  unfold kvFind at hf
  match hfind : m.kv.find? (fun p => p.1 == k) with
  | none => rw [hfind] at hf; simp at hf
  | some p =>
    rw [hfind] at hf
    simp only [Option.map_some', Option.some.injEq] at hf
    have hp := List.find?_some hfind
    simp only [beq_iff_eq] at hp
    have hpe : p = (k, h) := by cases p; simp_all
    exact hpe ▸ List.mem_of_find?_eq_some hfind

theorem kvFind_eq_some_of_mem {m : OrderedMap α} {k : α} {h : Nat}
    (hnd : (m.kv.map Prod.fst).Nodup) (hmem : (k, h) ∈ m.kv) :
    kvFind m k = some h := by
  unfold kvFind
  rw [find?_key_self hnd hmem]
  rfl

theorem kvFind_eq_none_iff {m : OrderedMap α} {k : α} :
    kvFind m k = none ↔ ∀ p ∈ m.kv, p.1 ≠ k := by
  simp [kvFind, Option.map_eq_none', List.find?_eq_none]

/-- Under the invariant the key snapshot is duplicate-free. -/
theorem keys_nodup {m : OrderedMap α} (hInv : Invariant m) : m.Keys.Nodup := by
  obtain ⟨hkv, hid, _, hnk, _, _⟩ := hInv
  refine List.Nodup.map_on ?_ (List.Nodup.of_map Prod.fst hid)
  intro x hx y hy hxy
  have hx' := hnk x hx
  have hy' := hnk y hy
  have heq : (x.2.1, x.1) = (y.2.1, y.1) := key_unique hkv hx' (hxy ▸ hy') (by simp [hxy])
  exact key_unique hid hx hy (congrArg Prod.snd heq)

theorem node_of_kvFind {m : OrderedMap α} {k : α} {h : Nat}
    (hInv : Invariant m) (hf : kvFind m k = some h) :
    ∃ v, (h, k, v) ∈ m.nodes := by
  obtain ⟨_, _, hkn, _, _, _⟩ := hInv
  obtain ⟨n, hn, hn1, hn2⟩ := hkn (k, h) (kvFind_mem hf)
  exact ⟨n.2.2, by obtain ⟨a, b, c⟩ := n; simp_all⟩

theorem nodeFind_eq {m : OrderedMap α} {n : Nat × α × α}
    (hid : (m.nodes.map Prod.fst).Nodup) (hn : n ∈ m.nodes) :
    nodeFind m n.1 = some n :=
  find?_key_self hid hn

/-- Any node of the sequence can be read back through the index. -/
theorem get_node {m : OrderedMap α} {n : Nat × α × α}
    (hInv : Invariant m) (hn : n ∈ m.nodes) : Get m n.2.1 = some n.2.2 := by
  have hkv := hInv.1
  have hid := hInv.2.1
  have hmem : (n.2.1, n.1) ∈ m.kv := hInv.2.2.2.1 n hn
  unfold Get
  rw [kvFind_eq_some_of_mem hkv hmem]
  show Option.map (fun n => n.2.2) (nodeFind m n.1) = some n.2.2
  rw [nodeFind_eq hid hn]
  rfl

theorem mem_keys_iff {m : OrderedMap α} {k : α} (hInv : Invariant m) :
    k ∈ m.Keys ↔ ∃ h, kvFind m k = some h := by
  constructor
  · intro hk
    obtain ⟨n, hn, hkey⟩ := List.mem_map.1 hk
    exact ⟨n.1, kvFind_eq_some_of_mem hInv.1 (hkey ▸ hInv.2.2.2.1 n hn)⟩
  · rintro ⟨h, hf⟩
    obtain ⟨v, hv⟩ := node_of_kvFind hInv hf
    exact List.mem_map.2 ⟨(h, k, v), hv, rfl⟩

theorem kvFind_eq_none_of_not_mem_keys {m : OrderedMap α} {k : α}
    (hInv : Invariant m) (hk : k ∉ m.Keys) : kvFind m k = none := by
  match hf : kvFind m k with
  | none => rfl
  | some h => exact absurd ((mem_keys_iff hInv).2 ⟨h, hf⟩) hk

/-- A key outside the snapshot reads back as not-found. -/
theorem get_eq_none_of_not_mem_keys {m : OrderedMap α} {k : α}
    (hInv : Invariant m) (hk : k ∉ m.Keys) : Get m k = none := by
  unfold Get
  rw [kvFind_eq_none_of_not_mem_keys hInv hk]

/-! ## Behaviour of Set and Delete -/

theorem set_of_kvFind_none {m : OrderedMap α} {k : α} (v : α)
    (hf : kvFind m k = none) :
    Set m k v = (true, ⟨m.nextId + 1, m.nodes ++ [(m.nextId, k, v)],
                        m.kv ++ [(k, m.nextId)]⟩) := by
  unfold Set
  rw [hf]

theorem set_of_kvFind_some {m : OrderedMap α} {k : α} (v : α) {h : Nat}
    (hf : kvFind m k = some h) :
    Set m k v =
      (false,
       ⟨m.nextId,
        m.nodes.map (fun n => if n.1 == h then (n.1, n.2.1, v) else n),
        m.kv⟩) := by
  unfold Set
  rw [hf]

theorem delete_of_kvFind_none {m : OrderedMap α} {k : α}
    (hf : kvFind m k = none) : Delete m k = (false, m) := by
  unfold Delete
  rw [hf]

theorem delete_of_kvFind_some {m : OrderedMap α} {k : α} {h : Nat}
    (hf : kvFind m k = some h) :
    Delete m k = (true, { m with nodes := m.nodes.eraseP (fun n => n.1 == h),
                                 kv := m.kv.eraseP (fun p => p.1 == k) }) := by
  unfold Delete
  rw [hf]

/-- Inserting an absent key appends it to the key snapshot. -/
theorem keys_set_absent {m : OrderedMap α} {k : α} (v : α)
    (hf : kvFind m k = none) : (Set m k v).2.Keys = m.Keys ++ [k] := by
  rw [set_of_kvFind_none v hf]
  simp [Keys]

/-- Overwriting a present key leaves the key snapshot unchanged. -/
theorem keys_set_present {m : OrderedMap α} {k : α} (v : α) {h : Nat}
    (hf : kvFind m k = some h) : (Set m k v).2.Keys = m.Keys := by
  rw [set_of_kvFind_some v hf]
  simp only [Keys, List.map_map]
  apply List.map_congr_left
  intro n hn
  by_cases hc : n.1 = h <;> simp [hc]

/-- `Set` preserves the container invariant. -/
theorem invariant_set {m : OrderedMap α} (hInv : Invariant m) (k v : α) :
    Invariant (Set m k v).2 := by
  obtain ⟨hkv, hid, hkn, hnk, hlen, hfresh⟩ := hInv
  match hf : kvFind m k with
  | none =>
    rw [set_of_kvFind_none v hf]
    have hknotin : k ∉ m.kv.map Prod.fst := by
      intro hmem
      obtain ⟨p, hp, hp1⟩ := List.mem_map.1 hmem
      exact (kvFind_eq_none_iff.1 hf p hp) hp1
    have hidnotin : m.nextId ∉ m.nodes.map Prod.fst := by
      intro hmem
      obtain ⟨n, hn, hn1⟩ := List.mem_map.1 hmem
      exact absurd (hn1 ▸ hfresh n hn) (lt_irrefl _)
    refine ⟨?_, ?_, ?_, ?_, ?_, ?_⟩
    · simpa [List.nodup_append, hkv] using hknotin
    · simpa [List.nodup_append, hid] using hidnotin
    · intro p hp
      rcases List.mem_append.1 hp with hp₀ | hp₁
      · obtain ⟨n, hn, hn1, hn2⟩ := hkn p hp₀
        exact ⟨n, List.mem_append_left _ hn, hn1, hn2⟩
      · refine ⟨(m.nextId, k, v), List.mem_append_right _ (List.mem_singleton_self _), ?_, ?_⟩ <;>
          simp_all
    · intro n hn
      rcases List.mem_append.1 hn with hn₀ | hn₁
      · exact List.mem_append_left _ (hnk n hn₀)
      · simp only [List.mem_singleton] at hn₁
        subst hn₁
        exact List.mem_append_right _ (List.mem_singleton_self _)
    · simp [hlen]
    · intro n hn
      rcases List.mem_append.1 hn with hn₀ | hn₁
      · exact Nat.lt_succ_of_lt (hfresh n hn₀)
      · simp only [List.mem_singleton] at hn₁
        subst hn₁
        exact Nat.lt_succ_self _
  | some h =>
    rw [set_of_kvFind_some v hf]
    have hu1 : ∀ n : Nat × α × α,
        ((if n.1 == h then (n.1, n.2.1, v) else n) : Nat × α × α).1 = n.1 := by
      intro n; by_cases hc : n.1 = h <;> simp [hc]
    have hu2 : ∀ n : Nat × α × α,
        ((if n.1 == h then (n.1, n.2.1, v) else n) : Nat × α × α).2.1 = n.2.1 := by
      intro n; by_cases hc : n.1 = h <;> simp [hc]
    have hmapid : (m.nodes.map (fun n => if n.1 == h then (n.1, n.2.1, v) else n)).map
        Prod.fst = m.nodes.map Prod.fst := by
      rw [List.map_map]
      exact List.map_congr_left (fun n _ => hu1 n)
    refine ⟨hkv, by rw [hmapid]; exact hid, ?_, ?_, ?_, ?_⟩
    · intro p hp
      obtain ⟨n, hn, hn1, hn2⟩ := hkn p hp
      exact ⟨_, List.mem_map_of_mem _ hn, by rw [hu1]; exact hn1, by rw [hu2]; exact hn2⟩
    · intro n' hn'
      obtain ⟨n, hn, hun⟩ := List.mem_map.1 hn'
      have := hnk n hn
      rw [← hun] at *
      rw [hu1, hu2]
      exact this
    · simp [hlen]
    · intro n' hn'
      obtain ⟨n, hn, hun⟩ := List.mem_map.1 hn'
      rw [← hun, hu1]
      exact hfresh n hn

/-- `Delete` preserves the container invariant. -/
theorem invariant_delete {m : OrderedMap α} (hInv : Invariant m) (k : α) :
    Invariant (Delete m k).2 := by
  match hf : kvFind m k with
  | none => rw [delete_of_kvFind_none hf]; exact hInv
  | some h =>
    obtain ⟨v₀, hv₀⟩ := node_of_kvFind hInv hf
    have hkvmem : (k, h) ∈ m.kv := kvFind_mem hf
    obtain ⟨hkv, hid, hkn, hnk, hlen, hfresh⟩ := hInv
    rw [delete_of_kvFind_some hf]
    have hmemkv : ∀ {p : α × Nat},
        p ∈ m.kv.eraseP (fun p => p.1 == k) ↔ p ∈ m.kv ∧ p.1 ≠ k :=
      fun {p} => mem_eraseP_key hkv hkvmem
    have hmemnd : ∀ {n : Nat × α × α},
        n ∈ m.nodes.eraseP (fun n => n.1 == h) ↔ n ∈ m.nodes ∧ n.1 ≠ h :=
      fun {n} => mem_eraseP_key hid hv₀
    refine ⟨?_, ?_, ?_, ?_, ?_, ?_⟩
    · exact List.Sublist.nodup (List.Sublist.map _ (List.eraseP_sublist _)) hkv
    · exact List.Sublist.nodup (List.Sublist.map _ (List.eraseP_sublist _)) hid
    · intro p hp
      obtain ⟨hpmem, hpne⟩ := hmemkv.1 hp
      obtain ⟨n, hn, hn1, hn2⟩ := hkn p hpmem
      refine ⟨n, hmemnd.2 ⟨hn, fun hcon => ?_⟩, hn1, hn2⟩
      have : n = (h, k, v₀) := key_unique hid hn hv₀ hcon
      exact hpne (by rw [← hn2, this])
    · intro n hn
      obtain ⟨hnmem, hnne⟩ := hmemnd.1 hn
      refine hmemkv.2 ⟨hnk n hnmem, fun hcon => ?_⟩
      have : (n.2.1, n.1) = (k, h) :=
        key_unique hkv (hnk n hnmem) hkvmem (by simpa using hcon)
      exact hnne (congrArg Prod.snd this)
    · rw [List.length_eraseP_of_mem hkvmem (by simp),
        List.length_eraseP_of_mem hv₀ (by simp), hlen]
    · intro n hn
      exact hfresh n (hmemnd.1 hn).1

/-- The empty container satisfies the invariant. -/
theorem invariant_empty : Invariant (NewOrderedMap : OrderedMap α) := by
  simp [Invariant, NewOrderedMap]

/-- Reading back the key just written returns the value just written. -/
theorem get_set_self {m : OrderedMap α} (hInv : Invariant m) (k v : α) :
    Get (Set m k v).2 k = some v := by
  have hInv' := invariant_set hInv k v
  match hf : kvFind m k with
  | none =>
    have hn : (m.nextId, k, v) ∈ (Set m k v).2.nodes := by
      rw [set_of_kvFind_none v hf]
      simp
    exact get_node hInv' hn
  | some h =>
    obtain ⟨v₀, hv₀⟩ := node_of_kvFind hInv hf
    have hn : (h, k, v) ∈ (Set m k v).2.nodes := by
      rw [set_of_kvFind_some v hf]
      exact List.mem_map.2 ⟨(h, k, v₀), hv₀, by simp⟩
    exact get_node hInv' hn

/-- Writing one key does not change what any other key reads back as. -/
theorem get_set_other {m : OrderedMap α} (hInv : Invariant m) {k k' : α} (v : α)
    (hne : k' ≠ k) : Get (Set m k v).2 k' = Get m k' := by
  have hInv' := invariant_set hInv k v
  match hf' : kvFind m k' with
  | none =>
    have hk' : k' ∉ m.Keys := fun hmem => by
      obtain ⟨h, hh⟩ := (mem_keys_iff hInv).1 hmem
      rw [hf'] at hh
      cases hh
    have hk'new : k' ∉ (Set m k v).2.Keys := by
      match hf : kvFind m k with
      | none =>
        rw [keys_set_absent v hf]
        simp only [List.mem_append, List.mem_singleton]
        rintro (hmem | rfl)
        · exact hk' hmem
        · exact hne rfl
      | some h => rw [keys_set_present v hf]; exact hk'
    rw [get_eq_none_of_not_mem_keys hInv' hk'new,
      get_eq_none_of_not_mem_keys hInv hk']
  | some h' =>
    obtain ⟨v', hv'⟩ := node_of_kvFind hInv hf'
    have hold : Get m k' = some v' := get_node hInv hv'
    have hnew : (h', k', v') ∈ (Set m k v).2.nodes := by
      match hf : kvFind m k with
      | none =>
        rw [set_of_kvFind_none v hf]
        exact List.mem_append_left _ hv'
      | some h =>
        obtain ⟨v₀, hv₀⟩ := node_of_kvFind hInv hf
        have hhne : h' ≠ h := by
          intro hcon
          subst hcon
          have := key_unique hInv.2.1 hv' hv₀ rfl
          simp only [Prod.mk.injEq] at this
          exact hne this.2.1
        rw [set_of_kvFind_some v hf]
        refine List.mem_map.2 ⟨(h', k', v'), hv', ?_⟩
        simp [hhne]
    rw [hold]
    exact get_node hInv' hnew

/-- After a successful delete the index no longer resolves the key. -/
theorem kvFind_delete_self {m : OrderedMap α} (hInv : Invariant m) {k : α}
    {h : Nat} (hf : kvFind m k = some h) : kvFind (Delete m k).2 k = none := by
  rw [delete_of_kvFind_some hf]
  refine kvFind_eq_none_iff.2 fun p hp => ?_
  exact ((mem_eraseP_key hInv.1 (kvFind_mem hf)).1 hp).2

/-- After a successful delete the key reads back as not-found. -/
theorem get_delete_self {m : OrderedMap α} (hInv : Invariant m) {k : α}
    {h : Nat} (hf : kvFind m k = some h) : Get (Delete m k).2 k = none := by
  unfold Get
  rw [kvFind_delete_self hInv hf]

/-- A successful delete removes exactly the deleted key from the snapshot. -/
theorem keys_delete {m : OrderedMap α} (hInv : Invariant m) {k : α} {h : Nat}
    (hf : kvFind m k = some h) : (Delete m k).2.Keys = m.Keys.erase k := by
  obtain ⟨v₀, hv₀⟩ := node_of_kvFind hInv hf
  obtain ⟨n₁, n₂, hdec, herase, _, _⟩ := eraseP_key_decomp hInv.2.1 hv₀
  have hkeys : m.Keys = n₁.map (fun n => n.2.1) ++ k :: n₂.map (fun n => n.2.1) := by
    rw [Keys, hdec]
    simp
  have hknotin : k ∉ n₁.map (fun n => n.2.1) := by
    have hnd := keys_nodup hInv
    rw [hkeys, List.nodup_append] at hnd
    exact fun hmem => hnd.2.2 hmem (List.mem_cons_self _ _)
  rw [delete_of_kvFind_some hf]
  show (m.nodes.eraseP (fun n => n.1 == h)).map (fun n => n.2.1) = m.Keys.erase k
  rw [herase, hkeys, List.erase_append_right _ hknotin, List.erase_cons_head]
  simp

/-- A successful delete shrinks the entry count by one. -/
theorem len_delete {m : OrderedMap α} {k : α} {h : Nat}
    (hf : kvFind m k = some h) : (Delete m k).2.Len = m.Len - 1 := by
  rw [delete_of_kvFind_some hf]
  exact List.length_eraseP_of_mem (kvFind_mem hf) (by simp)

/-! ## The Set loop of deserialization -/

theorem invariant_setPairs {m : OrderedMap α} (hInv : Invariant m)
    (ps : List (α × α)) : Invariant (setPairs m ps) := by
  induction ps generalizing m with
  | nil => exact hInv
  | cons p ps ih => exact ih (invariant_set hInv p.1 p.2)

/-- Applying the decoded pairs in order appends exactly the fresh keys, in
first-occurrence order, after the pre-existing snapshot. -/
theorem keys_setPairs {m : OrderedMap α} (hInv : Invariant m)
    (ps : List (α × α)) :
    (setPairs m ps).Keys = m.Keys ++ freshKeys m.Keys ps := by
  induction ps generalizing m with
  | nil => simp [setPairs, freshKeys]
  | cons p ps ih =>
    obtain ⟨k, v⟩ := p
    show (setPairs (Set m k v).2 ps).Keys = _
    rw [ih (invariant_set hInv k v)]
    match hf : kvFind m k with
    | some h =>
      have hk : k ∈ m.Keys := (mem_keys_iff hInv).2 ⟨h, hf⟩
      rw [keys_set_present v hf, freshKeys, if_pos hk]
    | none =>
      have hk : k ∉ m.Keys := fun hmem => by
        obtain ⟨h, hh⟩ := (mem_keys_iff hInv).1 hmem
        rw [hf] at hh
        cases hh
      rw [keys_set_absent v hf, freshKeys, if_neg hk, List.append_assoc]
      rfl

/-- Applying the decoded pairs in order makes every key read back as the value
of its last decoded pair, keys without a decoded pair being untouched. -/
theorem get_setPairs {m : OrderedMap α} (hInv : Invariant m)
    (ps : List (α × α)) (k : α) :
    Get (setPairs m ps) k = (lookupLast ps k).or (Get m k) := by
  induction ps generalizing m with
  | nil => simp [setPairs, lookupLast]
  | cons p ps ih =>
    obtain ⟨k₀, v⟩ := p
    show Get (setPairs (Set m k₀ v).2 ps) k = _
    rw [ih (invariant_set hInv k₀ v)]
    match hl : lookupLast ps k with
    | some r =>
      rw [lookupLast, hl]
      simp
    | none =>
      rw [lookupLast, hl]
      simp only [Option.none_or]
      by_cases hk : k = k₀
      · subst hk
        rw [get_set_self hInv k v]
        simp
      · rw [get_set_other hInv v hk, if_neg (by simpa using Ne.symm hk)]
        simp

theorem lookupLast_eq_none {ps : List (α × α)} {k : α}
    (hk : ∀ p ∈ ps, p.1 ≠ k) : lookupLast ps k = none := by
  induction ps with
  | nil => rfl
  | cons p ps ih =>
    obtain ⟨k₀, v⟩ := p
    rw [lookupLast, ih (fun q hq => hk q (List.mem_cons_of_mem _ hq))]
    rw [if_neg (by simpa using hk (k₀, v) (List.mem_cons_self _ _))]

theorem lookupLast_of_mem {ps : List (α × α)} {k v : α}
    (hnd : (ps.map Prod.fst).Nodup) (hmem : (k, v) ∈ ps) :
    lookupLast ps k = some v := by
  induction ps with
  | nil => cases hmem
  | cons p ps ih =>
    simp only [List.map_cons, List.nodup_cons] at hnd
    rcases List.mem_cons.1 hmem with heq | hmem₀
    · obtain ⟨rfl, rfl⟩ : p.1 = k ∧ p.2 = v := by
        rw [← heq]
        exact ⟨rfl, rfl⟩
      have hnone : lookupLast ps p.1 = none := by
        refine lookupLast_eq_none fun q hq hcon => ?_
        exact hnd.1 (hcon ▸ List.mem_map_of_mem Prod.fst hq)
      obtain ⟨k₀, v₀⟩ := p
      rw [lookupLast, hnone, if_pos (beq_self_eq_true k₀)]
    · obtain ⟨k₀, v₀⟩ := p
      rw [lookupLast, ih hnd.2 hmem₀]

/-! ## Marshal collection and round trip -/

theorem toPairs_marshalCollect [Inhabited α] (m : OrderedMap α)
    (ks : List α) :
    toPairs (marshalCollect m ks) = ks.map (fun k => (k, (Get m k).getD default)) := by
  induction ks with
  | nil => rfl
  | cons k ks ih => rw [marshalCollect, List.map_cons, toPairs, ih]

theorem length_marshalCollect [Inhabited α] (m : OrderedMap α)
    (ks : List α) : (marshalCollect m ks).length = 2 * ks.length := by
  induction ks with
  | nil => rfl
  | cons k ks ih => rw [marshalCollect]; simp [ih]; ring

/-- Under the invariant the marshalled pair list is exactly the entry list. -/
theorem toPairs_marshal [Inhabited α] {m : OrderedMap α}
    (hInv : Invariant m) : toPairs (MarshalJSON m) = entries m := by
  rw [MarshalJSON, toPairs_marshalCollect, Keys, entries, List.map_map]
  refine List.map_congr_left fun n hn => ?_
  have := get_node hInv hn
  simp [Function.comp, this]

theorem map_fst_entries (m : OrderedMap α) :
    (entries m).map Prod.fst = m.Keys := by
  simp [entries, Keys, List.map_map, Function.comp]

theorem lookupLast_entries {m : OrderedMap α} (hInv : Invariant m) (k : α) :
    lookupLast (entries m) k = Get m k := by
  by_cases hk : k ∈ m.Keys
  · obtain ⟨n, hn, hkey⟩ := List.mem_map.1 hk
    have hmem : (k, n.2.2) ∈ entries m := List.mem_map.2 ⟨n, hn, by rw [← hkey]⟩
    rw [lookupLast_of_mem (by rw [map_fst_entries]; exact keys_nodup hInv) hmem,
      ← hkey, get_node hInv hn]
  · rw [get_eq_none_of_not_mem_keys hInv hk]
    refine lookupLast_eq_none fun p hp hcon => ?_
    exact hk (by rw [← map_fst_entries m, ← hcon]; exact List.mem_map_of_mem Prod.fst hp)

/-- On a pair list whose keys are duplicate-free and all new, the `Set` loop
appends exactly those keys in order. -/
theorem freshKeys_of_nodup {ps : List (α × α)} :
    ∀ ks, (ps.map Prod.fst).Nodup → (∀ p ∈ ps, p.1 ∉ ks) →
      freshKeys ks ps = ps.map Prod.fst := by
  induction ps with
  | nil => intro ks _ _; rfl
  | cons p ps ih =>
    intro ks hnd hdis
    obtain ⟨k, v⟩ := p
    simp only [List.map_cons, List.nodup_cons] at hnd
    rw [freshKeys, if_neg (hdis (k, v) (List.mem_cons_self _ _)), List.map_cons]
    congr 1
    refine ih (ks ++ [k]) hnd.2 fun q hq hcon => ?_
    rcases List.mem_append.1 hcon with hcon₀ | hcon₁
    · exact hdis q (List.mem_cons_of_mem _ hq) hcon₀
    · simp only [List.mem_singleton] at hcon₁
      exact hnd.1 (hcon₁ ▸ List.mem_map_of_mem Prod.fst hq)

/-- The even-length guard of `UnmarshalJSON` passes exactly on even input. -/
theorem unmarshal_ok {m : OrderedMap α} {c : List α}
    (heven : c.length % 2 = 0) :
    UnmarshalJSON m (.ok c) = (none, setPairs m (toPairs c)) := by
  unfold UnmarshalJSON
  have hsr : c.length >>> 1 = c.length / 2 := Nat.shiftRight_eq_div_pow c.length 1
  have hsl : (c.length / 2) <<< 1 = c.length / 2 * 2 := Nat.shiftLeft_eq _ 1
  have : c.length >>> 1 <<< 1 = c.length := by
    rw [hsr, hsl]
    omega
  simp [this]

theorem unmarshal_odd {m : OrderedMap α} {c : List α}
    (hodd : c.length % 2 = 1) :
    UnmarshalJSON m (.ok c) =
      (some "invalid data, key-value doesn't match", m) := by
  unfold UnmarshalJSON
  have hsr : c.length >>> 1 = c.length / 2 := Nat.shiftRight_eq_div_pow c.length 1
  have hsl : (c.length / 2) <<< 1 = c.length / 2 * 2 := Nat.shiftLeft_eq _ 1
  have : c.length >>> 1 <<< 1 ≠ c.length := by
    rw [hsr, hsl]
    omega
  simp [this]

/-! ## Remaining helper lemmas -/

theorem keys_empty : (NewOrderedMap : OrderedMap α).Keys = [] := rfl

theorem get_empty (k : α) : Get (NewOrderedMap : OrderedMap α) k = none := rfl

/-- Inserting an absent key registers it in the index under the fresh handle. -/
theorem kvFind_set_absent {m : OrderedMap α} {k : α} (v : α)
    (hf : kvFind m k = none) : kvFind (Set m k v).2 k = some m.nextId := by
  rw [set_of_kvFind_none v hf]
  unfold kvFind at hf ⊢
  rw [List.find?_append, Option.map_eq_none'.1 hf]
  simp

/-- `GetOrDefault` is `Get` with the default substituted for not-found. -/
theorem getOrDefault_eq (m : OrderedMap α) (k d : α) :
    GetOrDefault m k d = (Get m k).getD d := by
  unfold GetOrDefault Get
  cases kvFind m k <;> simp

/-- Deleting one key does not change what any other key reads back as. -/
theorem get_delete_other {m : OrderedMap α} (hInv : Invariant m) {k k' : α}
    (hne : k ≠ k') : Get (Delete m k').2 k = Get m k := by
  match hf' : kvFind m k' with
  | none => rw [delete_of_kvFind_none hf']
  | some h =>
    have hInv' := invariant_delete hInv k'
    match hf : kvFind m k with
    | none =>
      have hk : k ∉ m.Keys := fun hmem => by
        obtain ⟨h₀, hh⟩ := (mem_keys_iff hInv).1 hmem
        rw [hf] at hh
        cases hh
      have hk' : k ∉ (Delete m k').2.Keys := by
        rw [keys_delete hInv hf']
        exact fun hmem => hk (List.mem_of_mem_erase hmem)
      rw [get_eq_none_of_not_mem_keys hInv' hk',
        get_eq_none_of_not_mem_keys hInv hk]
    | some hk =>
      obtain ⟨v, hv⟩ := node_of_kvFind hInv hf
      obtain ⟨v', hv'⟩ := node_of_kvFind hInv hf'
      have hidne : hk ≠ h := by
        intro hcon
        subst hcon
        have := key_unique hInv.2.1 hv hv' rfl
        simp only [Prod.mk.injEq] at this
        exact hne this.2.1
      have hmem : (hk, k, v) ∈ (Delete m k').2.nodes := by
        rw [delete_of_kvFind_some hf']
        exact (mem_eraseP_key hInv.2.1 hv').2 ⟨hv, hidne⟩
      rw [get_node hInv hv, get_node hInv' hmem]

/-- Every container built by `Set`/`Delete` calls satisfies the invariant. -/
theorem invariant_of_reachable {m : OrderedMap α} (hr : Reachable m) :
    Invariant m := by
  induction hr with
  | empty => exact invariant_empty
  | set k v _ ih => exact invariant_set ih k v
  | del k _ ih => exact invariant_delete ih k

/-! ## Claim theorems -/

/-- C1: For every key `k` and value `v`: if `k` is absent, `Set k v` appends a
new node `(k, v)` at the end of the sequence, inserts `k` into the index
(under the fresh handle), and returns `true`; if `k` is present, `Set k v`
overwrites the value in the existing node in place (the key reads back as the
new value, every other key reads back unchanged), leaves the position of `k`
in `Keys` unchanged (the whole key snapshot is unchanged), and returns
`false`. -/
theorem set_semantics (m : OrderedMap α) (k v : α) (hInv : Invariant m) :
    (kvFind m k = none →
      (Set m k v).1 = true ∧
      (Set m k v).2.nodes = m.nodes ++ [(m.nextId, k, v)] ∧
      kvFind (Set m k v).2 k = some m.nextId) ∧
    (∀ h, kvFind m k = some h →
      (Set m k v).1 = false ∧
      (Set m k v).2.Keys = m.Keys ∧
      Get (Set m k v).2 k = some v ∧
      ∀ k', k' ≠ k → Get (Set m k v).2 k' = Get m k') := by
  constructor
  · intro hf
    exact ⟨by rw [set_of_kvFind_none v hf], by rw [set_of_kvFind_none v hf],
      kvFind_set_absent v hf⟩
  · intro h hf
    exact ⟨by rw [set_of_kvFind_some v hf], keys_set_present v hf,
      get_set_self hInv k v, fun k' hk' => get_set_other hInv v hk'⟩

/-- Witness for C1: inserting key 1 with value 2 into the empty container
appends the node `(0, 1, 2)` and indexes key 1 under handle 0. -/
theorem set_semantics_witness :
    (Set (NewOrderedMap : OrderedMap Nat) 1 2).1 = true ∧
    (Set (NewOrderedMap : OrderedMap Nat) 1 2).2.nodes = [(0, 1, 2)] ∧
    kvFind (Set (NewOrderedMap : OrderedMap Nat) 1 2).2 1 = some 0 :=
  (set_semantics NewOrderedMap 1 2 (by decide)).1 (by decide)

/-- C2: `Keys` lists keys in first-insertion order, and a key re-inserted
after deletion is appended at the current tail: inserting `a, b, c` in that
order yields `Keys = [a, b, c]`, and then deleting `b` followed by inserting
`d` yields `Keys = [a, c, d]`. -/
theorem insertion_order_example (a b c d va vb vc vd : α)
    (hab : a ≠ b) (hac : a ≠ c) (hbc : b ≠ c) (hda : d ≠ a) (hdc : d ≠ c) :
    (Set (Set (Set (NewOrderedMap : OrderedMap α) a va).2 b vb).2 c vc).2.Keys
      = [a, b, c] ∧
    (Set (Delete (Set (Set (Set (NewOrderedMap : OrderedMap α) a va).2
      b vb).2 c vc).2 b).2 d vd).2.Keys = [a, c, d] := by
  constructor
  · simp [Set, NewOrderedMap, kvFind, Keys, List.find?_cons, hab, hac, hbc,
      Ne.symm hab, Ne.symm hac, Ne.symm hbc]
  · simp [Set, Delete, NewOrderedMap, kvFind, Keys, List.find?_cons,
      List.eraseP_cons, hab, hac, hbc, hda, hdc, Ne.symm hab, Ne.symm hac,
      Ne.symm hbc, Ne.symm hda, Ne.symm hdc]

/-- Witness for C2: keys 1, 2, 3, then delete 2 and insert 4. -/
theorem insertion_order_example_witness :
    (Set (Set (Set (NewOrderedMap : OrderedMap Nat) 1 10).2 2 20).2
      3 30).2.Keys = [1, 2, 3] ∧
    (Set (Delete (Set (Set (Set (NewOrderedMap : OrderedMap Nat) 1 10).2
      2 20).2 3 30).2 2).2 4 40).2.Keys = [1, 3, 4] :=
  insertion_order_example 1 2 3 4 10 20 30 40
    (by decide) (by decide) (by decide) (by decide) (by decide)

/-- C3: Round-trip law: for every container built by a finite sequence of
`Set`/`Delete` calls, deserializing the serialized output into a freshly
created empty container succeeds (no error) and produces a container with the
same key snapshot and the same `Get` result for every key. -/
theorem serialize_roundtrip [Inhabited α] (m : OrderedMap α)
    (hr : Reachable m) :
    (UnmarshalJSON NewOrderedMap (.ok (MarshalJSON m))).1 = none ∧
    (UnmarshalJSON NewOrderedMap (.ok (MarshalJSON m))).2.Keys = m.Keys ∧
    ∀ k, Get (UnmarshalJSON NewOrderedMap (.ok (MarshalJSON m))).2 k
      = Get m k := by
  have hInv := invariant_of_reachable hr
  have heven : (MarshalJSON m).length % 2 = 0 := by
    rw [MarshalJSON, length_marshalCollect]
    omega
  rw [unmarshal_ok heven, toPairs_marshal hInv]
  refine ⟨rfl, ?_, ?_⟩
  · rw [keys_setPairs invariant_empty, keys_empty,
      freshKeys_of_nodup []
        (by rw [map_fst_entries]; exact keys_nodup hInv) (by simp),
      map_fst_entries, List.nil_append]
  · intro k
    rw [get_setPairs invariant_empty, lookupLast_entries hInv, get_empty]
    cases Get m k <;> rfl

/-- Witness for C3: round-tripping the container holding 1 ↦ 10 then 2 ↦ 20
reproduces its key snapshot. -/
theorem serialize_roundtrip_witness :
    (UnmarshalJSON (NewOrderedMap : OrderedMap Nat)
      (.ok (MarshalJSON (Set (Set NewOrderedMap 1 10).2 2 20).2))).2.Keys
      = [1, 2] :=
  (serialize_roundtrip (Set (Set (NewOrderedMap : OrderedMap Nat) 1 10).2
      2 20).2
    (Reachable.set 2 20 (Reachable.set 1 10 Reachable.empty))).2.1

/-- C4: For every malformed input — outer JSON layer invalid, inner gob layer
undecodable, or a decoded flattened pair list of odd length — `UnmarshalJSON`
returns an explicit error, performs no `Set` (the container is returned
exactly as it was), and, for any container satisfying the invariant, leaves
the index and sequence sizes equal. -/
theorem unmarshal_malformed_safe (m : OrderedMap α) (input : DecodeInput α)
    (hbad : input = .badOuter ∨ input = .badGob ∨
      ∃ c, input = .ok c ∧ c.length % 2 = 1) :
    ((UnmarshalJSON m input).1).isSome = true ∧
    (UnmarshalJSON m input).2 = m ∧
    (Invariant m →
      (UnmarshalJSON m input).2.kv.length
        = (UnmarshalJSON m input).2.nodes.length) := by
  rcases hbad with rfl | rfl | ⟨c, rfl, hodd⟩
  · exact ⟨rfl, rfl, fun hInv => hInv.2.2.2.2.1⟩
  · exact ⟨rfl, rfl, fun hInv => hInv.2.2.2.2.1⟩
  · rw [unmarshal_odd hodd]
    exact ⟨rfl, rfl, fun hInv => hInv.2.2.2.2.1⟩

/-- Witness for C4: an odd-length collection is rejected and the container
(here holding one entry) is untouched, with matching structure sizes. -/
theorem unmarshal_malformed_safe_witness :
    ((UnmarshalJSON (Set (NewOrderedMap : OrderedMap Nat) 1 2).2
      (.ok [7])).1).isSome = true ∧
    (UnmarshalJSON (Set (NewOrderedMap : OrderedMap Nat) 1 2).2
      (.ok [7])).2 = (Set (NewOrderedMap : OrderedMap Nat) 1 2).2 ∧
    (Invariant (Set (NewOrderedMap : OrderedMap Nat) 1 2).2 →
      (UnmarshalJSON (Set (NewOrderedMap : OrderedMap Nat) 1 2).2
        (.ok [7])).2.kv.length
        = (UnmarshalJSON (Set (NewOrderedMap : OrderedMap Nat) 1 2).2
            (.ok [7])).2.nodes.length) :=
  unmarshal_malformed_safe (Set (NewOrderedMap : OrderedMap Nat) 1 2).2
    (.ok [7]) (Or.inr (Or.inr ⟨[7], rfl, rfl⟩))

/-- C5: The invariant — the index keys and the sequence nodes are in bijection
(each index entry's handle resolves to exactly one node carrying that key and
each node is registered under its key, with duplicate-free keys and handles)
and `Len` equals the entry count of both structures — holds for the empty
container, is preserved by every `Set` and every `Delete`, and therefore
holds for every container built from the empty one. -/
theorem invariant_preserved :
    Invariant (NewOrderedMap : OrderedMap α) ∧
    (∀ (m : OrderedMap α) (k v : α), Invariant m → Invariant (Set m k v).2) ∧
    (∀ (m : OrderedMap α) (k : α), Invariant m → Invariant (Delete m k).2) ∧
    (∀ m : OrderedMap α, Reachable m → Invariant m) ∧
    (∀ m : OrderedMap α, Invariant m →
      m.Len = m.kv.length ∧ m.Len = m.nodes.length) :=
  ⟨invariant_empty,
   fun _ k v hInv => invariant_set hInv k v,
   fun _ k hInv => invariant_delete hInv k,
   fun _ hr => invariant_of_reachable hr,
   fun _ hInv => ⟨rfl, hInv.2.2.2.2.1⟩⟩

/-- Witness for C5: the invariant after one concrete insertion. -/
theorem invariant_preserved_witness :
    Invariant (Set (NewOrderedMap : OrderedMap Nat) 1 2).2 :=
  invariant_preserved.2.1 NewOrderedMap 1 2 (by decide)

/-- C6: For every key `k` not present, `Get k` returns not-found (`none`,
never an abort — the model is total) and `GetOrDefault k d` returns `d`; the
Go method performs no write, which the embedding renders by `GetOrDefault`
returning only a value, and `GetOrDefault` is exactly `Get` with the default
substituted for not-found.  After `Set k v`, `Get k` returns `v`, and neither
a `Set` nor a `Delete` of a different key changes what `k` reads back as (so
the result persists while no intervening `Delete` of `k` occurs). -/
theorem get_miss_and_default (m : OrderedMap α) (k d v : α)
    (hInv : Invariant m) :
    (k ∉ m.Keys → Get m k = none ∧ GetOrDefault m k d = d) ∧
    GetOrDefault m k d = (Get m k).getD d ∧
    Get (Set m k v).2 k = some v ∧
    (∀ k' v', k ≠ k' → Get (Set m k' v').2 k = Get m k) ∧
    (∀ k', k ≠ k' → Get (Delete m k').2 k = Get m k) := by
  refine ⟨?_, getOrDefault_eq m k d, get_set_self hInv k v,
    fun k' v' hk => get_set_other hInv v' hk,
    fun k' hk => get_delete_other hInv hk⟩
  intro hk
  have hnone := get_eq_none_of_not_mem_keys hInv hk
  exact ⟨hnone, by rw [getOrDefault_eq, hnone]; rfl⟩

/-- Witness for C6: key 5 is absent from the container holding only key 1. -/
theorem get_miss_and_default_witness :
    Get (Set (NewOrderedMap : OrderedMap Nat) 1 2).2 5 = none ∧
    GetOrDefault (Set (NewOrderedMap : OrderedMap Nat) 1 2).2 5 99 = 99 :=
  (get_miss_and_default (Set (NewOrderedMap : OrderedMap Nat) 1 2).2 5 99 42
    (by decide)).1 (by decide)

/-- C7: If `k` is present, `Delete k` removes its sequence node (the key
snapshot loses exactly `k`) and its index entry (the index no longer resolves
`k` and the key reads back as not-found), shrinks the length by one, and
returns `true`; if `k` is absent, `Delete k` returns `false` and the
container is returned exactly unchanged. -/
theorem delete_semantics (m : OrderedMap α) (k : α) (hInv : Invariant m) :
    (∀ h, kvFind m k = some h →
      (Delete m k).1 = true ∧
      (Delete m k).2.Keys = m.Keys.erase k ∧
      kvFind (Delete m k).2 k = none ∧
      Get (Delete m k).2 k = none ∧
      (Delete m k).2.Len = m.Len - 1) ∧
    (kvFind m k = none → Delete m k = (false, m)) := by
  constructor
  · intro h hf
    exact ⟨by rw [delete_of_kvFind_some hf], keys_delete hInv hf,
      kvFind_delete_self hInv hf, get_delete_self hInv hf, len_delete hf⟩
  · exact delete_of_kvFind_none

/-- Witness for C7: deleting the single key of a one-entry container. -/
theorem delete_semantics_witness :
    (Delete (Set (NewOrderedMap : OrderedMap Nat) 1 2).2 1).1 = true ∧
    (Delete (Set (NewOrderedMap : OrderedMap Nat) 1 2).2 1).2.Keys = [] ∧
    kvFind (Delete (Set (NewOrderedMap : OrderedMap Nat) 1 2).2 1).2 1
      = none ∧
    Get (Delete (Set (NewOrderedMap : OrderedMap Nat) 1 2).2 1).2 1 = none ∧
    (Delete (Set (NewOrderedMap : OrderedMap Nat) 1 2).2 1).2.Len = 0 :=
  (delete_semantics (Set (NewOrderedMap : OrderedMap Nat) 1 2).2 1
    (by decide)).1 0 (by decide)

/-- C8: `Front` and `Back` on the empty container return absent (`none`); on
a non-empty container they return the (key, value) of the oldest and of the
newest first-inserted entry: after `Set a v₁` then `Set b v₂` (distinct
keys), `Front` is `(a, v₁)` and `Back` is `(b, v₂)`. -/
theorem front_back_semantics (a b v₁ v₂ : α) (hne : a ≠ b) :
    Front (NewOrderedMap : OrderedMap α) = none ∧
    Back (NewOrderedMap : OrderedMap α) = none ∧
    Front (Set (Set (NewOrderedMap : OrderedMap α) a v₁).2 b v₂).2
      = some (a, v₁) ∧
    Back (Set (Set (NewOrderedMap : OrderedMap α) a v₁).2 b v₂).2
      = some (b, v₂) := by
  refine ⟨rfl, rfl, ?_, ?_⟩ <;>
    simp [Set, NewOrderedMap, kvFind, Front, Back, List.find?_cons, hne,
      Ne.symm hne]

/-- Witness for C8: keys 1 and 2 with values 10 and 20. -/
theorem front_back_semantics_witness :
    Front (NewOrderedMap : OrderedMap Nat) = none ∧
    Back (NewOrderedMap : OrderedMap Nat) = none ∧
    Front (Set (Set (NewOrderedMap : OrderedMap Nat) 1 10).2 2 20).2
      = some (1, 10) ∧
    Back (Set (Set (NewOrderedMap : OrderedMap Nat) 1 10).2 2 20).2
      = some (2, 20) :=
  front_back_semantics 1 2 10 20 (by decide)

/-- C9 counterexample: the claim that a key captured by the `Keys()` snapshot
but deleted before its `Get` is silently skipped from the serialized output
is false.  Concretely: for the container that held 1 ↦ 2, running the
collection loop of `MarshalJSON` with the pre-deletion snapshot `[1]` against
the post-deletion state emits the pair `1, nil` (here `1, 0` with `default`
playing Go's `nil`) — the key is present in the output, not skipped. -/
theorem marshal_skips_deleted_counterexample :
    marshalCollect (Delete (Set (NewOrderedMap : OrderedMap Nat) 1 2).2 1).2
      ((Set (NewOrderedMap : OrderedMap Nat) 1 2).2.Keys) = [1, 0] ∧
    1 ∈ marshalCollect
      (Delete (Set (NewOrderedMap : OrderedMap Nat) 1 2).2 1).2
      ((Set (NewOrderedMap : OrderedMap Nat) 1 2).2.Keys) := by
  decide

/-- C9 amended: the collection loop of `MarshalJSON` discards `Get`'s found
flag, so a key of the snapshot that no longer resolves at `Get` time is still
emitted, paired with Go's `nil` (`default`), rather than being skipped. -/
theorem marshal_emits_nil_for_missing [Inhabited α] (m : OrderedMap α)
    (k : α) (rest : List α) (hmiss : Get m k = none) :
    marshalCollect m (k :: rest)
      = k :: default :: marshalCollect m rest := by
  rw [marshalCollect, hmiss]
  rfl

/-- Witness for amended C9: a missing key is emitted with the default value. -/
theorem marshal_emits_nil_for_missing_witness :
    marshalCollect (NewOrderedMap : OrderedMap Nat) [7] = [7, 0] :=
  marshal_emits_nil_for_missing NewOrderedMap 7 [] rfl

/-- C10: `UnmarshalJSON` does not clear the receiving container: on any
well-formed (even-length) decoded collection it succeeds and equals the
`Set` loop applied to the existing container — every pre-existing key keeps
exactly its old position (the old snapshot is a prefix of the new one),
decoded new keys are appended after all pre-existing entries in first-
occurrence order, and every key reads back as the value of its last decoded
pair, or as its old value if no decoded pair carries it. -/
theorem unmarshal_merges_no_clear (m : OrderedMap α) (c : List α)
    (hInv : Invariant m) (heven : c.length % 2 = 0) :
    (UnmarshalJSON m (.ok c)).1 = none ∧
    (UnmarshalJSON m (.ok c)).2 = setPairs m (toPairs c) ∧
    (UnmarshalJSON m (.ok c)).2.Keys
      = m.Keys ++ freshKeys m.Keys (toPairs c) ∧
    ∀ k, Get (UnmarshalJSON m (.ok c)).2 k
      = (lookupLast (toPairs c) k).or (Get m k) := by
  rw [unmarshal_ok heven]
  exact ⟨rfl, rfl, keys_setPairs hInv _, fun k => get_setPairs hInv _ k⟩

/-- Witness for C10: merging the collection `[2, 99, 3, 30]` into the
container holding 1 ↦ 10 then 2 ↦ 20 keeps keys 1, 2 in place, overwrites
key 2, and appends the new key 3. -/
theorem unmarshal_merges_no_clear_witness :
    (UnmarshalJSON (Set (Set (NewOrderedMap : OrderedMap Nat) 1 10).2
      2 20).2 (.ok [2, 99, 3, 30])).2.Keys = [1, 2, 3] :=
  (unmarshal_merges_no_clear
    (Set (Set (NewOrderedMap : OrderedMap Nat) 1 10).2 2 20).2
    [2, 99, 3, 30] (by decide) (by decide)).2.2.1

end OrderedMap
